import Mathlib

/-!
Verification of the TodoMVC backbone application (`src/js/todo-app.js`)
via a shallow embedding of its model, collection, view and router logic.

The embedding maps:
* the `Todo` model to a structure with `title`, `completed`, `order` fields;
* the `TodoList` collection to a `List Todo` with the collection kept
  sorted by the `comparator` (the `order` field);
* `TodoFilter` to a structure holding one mutable string;
* the view and router callbacks to pure state-transition functions.
JavaScript string truthiness (`if (title)`, `!val.trim()`) is embedded as
comparison with the empty string.
-/

/-- The `Todo` model: attributes `title`, `completed`, `order`
(`class Todo extends Model`). -/
structure Todo where
  title : String
  completed : Bool
  order : Int
deriving DecidableEq, Repr

/-- Default `title` attribute from `Todo.defaults()`. -/
def defaultTitle : String := ""

/-- Default `completed` attribute from `Todo.defaults()`. -/
def defaultCompleted : Bool := false

/-- Backbone model creation: attributes that are not supplied fall back to
`defaults()`.  The `order` attribute has no default in the source; it is
passed explicitly here. -/
def Todo.create (titleAttr : Option String) (completedAttr : Option Bool)
    (orderAttr : Int) : Todo :=
  { title := titleAttr.getD defaultTitle
    completed := completedAttr.getD defaultCompleted
    order := orderAttr }

/-- `Todo.toggle()`: `this.save({ completed: !this.get('completed') })`. -/
def Todo.toggle (t : Todo) : Todo :=
  { t with completed := !t.completed }

/-- `TodoList.completed()`: `this.filter(todo => todo.get('completed'))`. -/
def completed (s : List Todo) : List Todo :=
  s.filter (fun t => t.completed)

/-- Underscore `without`: the elements of `s` that are not among `cs`. -/
def without (s cs : List Todo) : List Todo :=
  s.filter (fun t => decide (t ∉ cs))

/-- `TodoList.remaining()`: `this.without(...this.completed())`. -/
def remaining (s : List Todo) : List Todo :=
  without s (completed s)

/-- `TodoList.nextOrder()`: `1` when the collection is empty, else
`this.last().get('order') + 1`. -/
def nextOrder (s : List Todo) : Int :=
  match s.getLast? with
  | none => 1
  | some t => t.order + 1

/-- `TodoList.comparator(todo)`: `todo.get('order')`. -/
def comparator (t : Todo) : Int := t.order

/-- The collection invariant maintained by the comparator: items sorted by
`order` ascending. -/
def SortedByOrder (s : List Todo) : Prop :=
  List.Pairwise (fun a b => comparator a ≤ comparator b) s

/-- Maximum `order` value among the items of a non-empty store
(`0` for the empty store, unused there). -/
def maxOrder : List Todo → Int
  | [] => 0
  | t :: ts => ts.foldl (fun m u => max m u.order) t.order

/-- `TodoFilter`: holds the current filter value, initialized to `''`. -/
structure TodoFilter where
  value : String
deriving DecidableEq, Repr

/-- `new TodoFilter()`: `this.value = ''`. -/
def TodoFilter.init : TodoFilter := ⟨""⟩

/-- `Filters.filter(param = '')`: stores the captured route fragment
verbatim into the filter; the default parameter `''` fires only when the
argument is `undefined` (embedded as `none`). -/
def Filters.filter (param : Option String) (tf : TodoFilter) : TodoFilter :=
  { tf with value := param.getD "" }

/-- The filter states reachable in the application: the initial state, and
any state produced by the router's `filter` route callback. -/
inductive FilterReachable : TodoFilter → Prop
  | start : FilterReachable TodoFilter.init
  | route (p : Option String) {tf : TodoFilter} :
      FilterReachable tf → FilterReachable (Filters.filter p tf)

/-- `TodoView.isHidden` getter: hidden iff
`(!isCompleted && filter.value === 'completed') ||
 (isCompleted && filter.value === 'active')`. -/
def isHidden (m : Todo) (filterValue : String) : Bool :=
  (!m.completed && filterValue == "completed") ||
  (m.completed && filterValue == "active")

/-- Update the element at position `i` of a list with `f`
(out-of-range indices leave the list unchanged); used to embed a Backbone
`model.save` of the model at that position. -/
def updateAt (s : List Todo) (i : Nat) (f : Todo → Todo) : List Todo :=
  match s, i with
  | [], _ => []
  | t :: ts, 0 => f t :: ts
  | t :: ts, n + 1 => t :: updateAt ts n f

/-- `TodoView.close()` acting on the item at position `i` with edit-input
value `v`: `if (title) { this.model.save({ title }); } else
{ this.clear(); }` — the input value is used untrimmed, the string is
truthy iff non-empty, and `clear()` destroys the model. -/
def closeAt (s : List Todo) (i : Nat) (v : String) : List Todo :=
  if v ≠ "" then updateAt s i (fun t => { t with title := v })
  else s.eraseIdx i

/-- `TodoView.clear()` / the destroy button on the item at position `i`:
`this.model.destroy()` removes the model from the collection. -/
def destroyAt (s : List Todo) (i : Nat) : List Todo :=
  s.eraseIdx i

/-- `TodoView.toggleCompleted()` on the item at position `i`:
`this.model.toggle()`. -/
def toggleAt (s : List Todo) (i : Nat) : List Todo :=
  updateAt s i Todo.toggle

/-- JavaScript `String.prototype.trim`: strip leading and trailing
whitespace. -/
def jsTrim (s : String) : String :=
  ⟨((s.data.dropWhile Char.isWhitespace).reverse.dropWhile
      Char.isWhitespace).reverse⟩

/-- The part of the `AppView` state the claims concern: the collection and
the `#new-todo` input field value. -/
structure AppState where
  todos : List Todo
  inputVal : String
deriving DecidableEq, Repr

/-- `AppView.newAttributes()`:
`{ title: this.$input.val().trim(), order: this.todos.nextOrder(),
completed: false }`. -/
def newAttributes (st : AppState) : Todo :=
  { title := jsTrim st.inputVal
    completed := false
    order := nextOrder st.todos }

/-- `ENTER_KEY = 13`. -/
def ENTER_KEY : Nat := 13

/-- Backbone `Collection.add` under a comparator: the new model is placed
at its sort position (stably, after existing items with a smaller or equal
comparator value). -/
def insertByOrder (t : Todo) : List Todo → List Todo
  | [] => [t]
  | u :: us => if t.order < u.order then t :: u :: us else u :: insertByOrder t us

/-- `AppView.createOnEnter(e)`: returns unchanged unless the key is Enter
and the trimmed input is non-empty; otherwise `this.todos.create(
this.newAttributes())` and `this.$input.val('')`. -/
def createOnEnter (key : Nat) (st : AppState) : AppState :=
  if key ≠ ENTER_KEY ∨ jsTrim st.inputVal = "" then st
  else { todos := insertByOrder (newAttributes st) st.todos, inputVal := "" }

/-- `AppView.clearCompleted()`:
`_.invoke(this.todos.completed(), 'destroy')` — destroy each model of the
snapshot of `completed()` in turn, each destroy removing that model from
the collection. -/
def clearCompleted (s : List Todo) : List Todo :=
  (completed s).foldl (fun acc t => acc.erase t) s

/-- `AppView.toggleAllComplete()`:
`this.todos.each(todo => todo.save({ completed }))` with the checkbox
state `b`. -/
def toggleAllComplete (b : Bool) (s : List Todo) : List Todo :=
  s.map (fun t => { t with completed := b })

/-- Strict version of the order invariant: `order` values strictly
increasing along the list, hence pairwise distinct. -/
def StrictSortedByOrder (s : List Todo) : Prop :=
  List.Pairwise (fun a b => a.order < b.order) s

/-- The collection states reachable in the application: the empty initial
store, then any sequence of the store-mutating operations (new-item
creation, per-item toggle, edit close, destroy, clear-completed,
toggle-all). -/
inductive StoreReachable : List Todo → Prop
  | start : StoreReachable []
  | create (v : String) {s : List Todo} :
      StoreReachable s → StoreReachable (createOnEnter ENTER_KEY ⟨s, v⟩).todos
  | toggle (i : Nat) {s : List Todo} :
      StoreReachable s → StoreReachable (toggleAt s i)
  | close (i : Nat) (v : String) {s : List Todo} :
      StoreReachable s → StoreReachable (closeAt s i v)
  | destroy (i : Nat) {s : List Todo} :
      StoreReachable s → StoreReachable (destroyAt s i)
  | clear {s : List Todo} :
      StoreReachable s → StoreReachable (clearCompleted s)
  | toggleAll (b : Bool) {s : List Todo} :
      StoreReachable s → StoreReachable (toggleAllComplete b s)

/-- Claim C9: `toggle()` negates the `completed` flag, and applying it
twice restores the item exactly. -/
theorem toggle_involution (t : Todo) :
    (t.toggle).completed = !t.completed ∧ t.toggle.toggle = t := by
  refine ⟨rfl, ?_⟩
  cases t with
  | mk title c order => simp [Todo.toggle]

/-- Claim C10: an item created without explicit `title` or `completed`
attributes receives the defaults `""` and `false`. -/
theorem create_defaults (o : Int) :
    (Todo.create none none o).title = "" ∧
    (Todo.create none none o).completed = false := by
  exact ⟨rfl, rfl⟩

/-- Claim C5: `isHidden` is true exactly when the item is not completed and
the filter is `"completed"`, or the item is completed and the filter is
`"active"`; in every other case, including the empty and unrecognized
filter strings, the item is visible. -/
theorem isHidden_spec (m : Todo) (f : String) :
    isHidden m f = true ↔
      ((m.completed = false ∧ f = "completed") ∨
       (m.completed = true ∧ f = "active")) := by
  cases hc : m.completed <;>
    simp [isHidden, hc, beq_iff_eq]

/-- Witness for C5: a completed item under filter `"active"` is hidden. -/
theorem isHidden_spec_witness :
    isHidden ⟨"a", true, 1⟩ "active" = true :=
  (isHidden_spec ⟨"a", true, 1⟩ "active").mpr (Or.inr ⟨rfl, rfl⟩)

lemma mem_completed {t : Todo} {s : List Todo} :
    t ∈ completed s ↔ t ∈ s ∧ t.completed = true := by
  simp [completed]

lemma remaining_eq_filter (s : List Todo) :
    remaining s = s.filter (fun t => !t.completed) := by
  unfold remaining without
  apply List.filter_congr
  intro t ht
  cases hc : t.completed
  · simp [mem_completed, hc]
  · simp [mem_completed, hc, ht]

/-- Claim C4: `completed()` returns exactly the completed items,
`remaining()` exactly the non-completed items, and the two partition the
store: disjoint, and together a permutation of the whole store. -/
theorem completed_remaining_partition (s : List Todo) :
    (∀ t, t ∈ completed s → t.completed = true) ∧
    (∀ t, t ∈ remaining s → t.completed = false) ∧
    (∀ t, ¬(t ∈ completed s ∧ t ∈ remaining s)) ∧
    List.Perm (completed s ++ remaining s) s := by
  refine ⟨?_, ?_, ?_, ?_⟩
  · intro t ht; exact (mem_completed.mp ht).2
  · intro t ht
    rw [remaining_eq_filter] at ht
    have := (List.mem_filter.mp ht).2
    simpa using this
  · intro t ⟨h1, h2⟩
    have hc := (mem_completed.mp h1).2
    rw [remaining_eq_filter] at h2
    have := (List.mem_filter.mp h2).2
    simp [hc] at this
  · rw [remaining_eq_filter]
    exact List.filter_append_perm (fun t => t.completed) s

/-- Witness for C4: on a concrete two-element store, the item returned by
`completed()` is indeed completed. -/
theorem completed_remaining_partition_witness :
    (⟨"a", true, 1⟩ : Todo).completed = true :=
  (completed_remaining_partition [⟨"a", true, 1⟩, ⟨"b", false, 2⟩]).1
    ⟨"a", true, 1⟩ (by decide)

lemma foldl_erase_cons_of_not_mem (cs : List Todo) (a : Todo)
    (t : List Todo) (h : a ∉ cs) :
    cs.foldl (fun acc x => acc.erase x) (a :: t) =
      a :: cs.foldl (fun acc x => acc.erase x) t := by
  induction cs generalizing t with
  | nil => rfl
  | cons c cs ih =>
    have hca : ¬(a = c) := fun hac => h (hac ▸ List.mem_cons_self c cs)
    have hbe : (a == c) = false := by simpa using hca
    have herase : (a :: t).erase c = a :: t.erase c :=
      List.erase_cons_tail (by simp [hbe])
    have hnotmem : a ∉ cs := fun hm => h (List.mem_cons_of_mem c hm)
    simp only [List.foldl_cons, herase]
    exact ih (t.erase c) hnotmem

lemma not_completed_not_mem_completed {a : Todo} {s : List Todo}
    (ha : a.completed = false) : a ∉ completed s := by
  intro hm
  have := (mem_completed.mp hm).2
  rw [ha] at this
  exact Bool.false_ne_true this

lemma clearCompleted_eq_filter (s : List Todo) :
    clearCompleted s = s.filter (fun t => !t.completed) := by
  induction s with
  | nil => rfl
  | cons a t ih =>
    cases ha : a.completed
    · have hnm : a ∉ completed t := not_completed_not_mem_completed ha
      have hcomp : completed (a :: t) = completed t := by
        simp [completed, ha]
      unfold clearCompleted
      rw [hcomp, foldl_erase_cons_of_not_mem (completed t) a t hnm]
      have : (completed t).foldl (fun acc x => acc.erase x) t =
          clearCompleted t := rfl
      rw [this, ih]
      simp [ha]
    · have hcomp : completed (a :: t) = a :: completed t := by
        simp [completed, ha]
      unfold clearCompleted
      rw [hcomp]
      simp only [List.foldl_cons, List.erase_cons_head]
      have : (completed t).foldl (fun acc x => acc.erase x) t =
          clearCompleted t := rfl
      rw [this, ih]
      simp [ha]

/-- Claim C7: `clearCompleted()` removes exactly the items completed at
invocation time (the snapshot of `completed()`), leaving every
non-completed item in place, in order, with all fields unchanged: the
result is precisely the store filtered to its non-completed items. -/
theorem clearCompleted_spec (s : List Todo) :
    clearCompleted s = s.filter (fun t => !t.completed) :=
  clearCompleted_eq_filter s

lemma maxOrder_cons_cons (t u : Todo) (us : List Todo)
    (h : t.order ≤ u.order) :
    maxOrder (t :: u :: us) = maxOrder (u :: us) := by
  simp [maxOrder, max_eq_right h]

lemma nextOrder_cons (t : Todo) (ts : List Todo)
    (h : SortedByOrder (t :: ts)) :
    nextOrder (t :: ts) = maxOrder (t :: ts) + 1 := by
  induction ts generalizing t with
  | nil => simp [nextOrder, maxOrder]
  | cons u us ih =>
    have hp := List.pairwise_cons.mp h
    have htu : t.order ≤ u.order := hp.1 u (List.mem_cons_self u us)
    calc nextOrder (t :: u :: us)
        = nextOrder (u :: us) := by
          simp [nextOrder, List.getLast?_cons_cons]
      _ = maxOrder (u :: us) + 1 := ih u hp.2
      _ = maxOrder (t :: u :: us) + 1 := by
          rw [maxOrder_cons_cons t u us htu]

/-- Claim C3: `nextOrder()` returns `1` on the empty store, and on a
non-empty store sorted by `order` ascending it returns the maximum
`order` value plus one. -/
theorem nextOrder_spec :
    nextOrder [] = 1 ∧
    ∀ s : List Todo, SortedByOrder s → s ≠ [] →
      nextOrder s = maxOrder s + 1 := by
  refine ⟨rfl, ?_⟩
  intro s hs hne
  cases s with
  | nil => exact absurd rfl hne
  | cons t ts => exact nextOrder_cons t ts hs

/-- Witness for C3: on a concrete sorted two-element store, `nextOrder`
is the maximum order plus one. -/
theorem nextOrder_spec_witness :
    nextOrder [⟨"a", false, 1⟩, ⟨"b", true, 4⟩] =
      maxOrder [⟨"a", false, 1⟩, ⟨"b", true, 4⟩] + 1 :=
  nextOrder_spec.2 [⟨"a", false, 1⟩, ⟨"b", true, 4⟩]
    (by simp [SortedByOrder, comparator]) (by simp)

lemma updateAt_length (s : List Todo) (i : Nat) (f : Todo → Todo) :
    (updateAt s i f).length = s.length := by
  induction s generalizing i with
  | nil => rfl
  | cons t ts ih =>
    cases i with
    | zero => rfl
    | succ n => simp [updateAt, ih]

lemma updateAt_getElem? (s : List Todo) (i : Nat) (f : Todo → Todo) :
    (updateAt s i f)[i]? = s[i]?.map f := by
  induction s generalizing i with
  | nil => simp [updateAt]
  | cons t ts ih =>
    cases i with
    | zero => simp [updateAt]
    | succ n => simpa [updateAt] using ih n

/-- Counterexample to C1: closing the edit with the one-space input
`" "` — whose trimmed form is empty — does not delete the item; `close()`
tests the untrimmed value, so it saves `" "` as the new title and the
store length stays 1 instead of decreasing to 0. -/
theorem close_trim_counterexample :
    jsTrim " " = "" ∧
    closeAt [⟨"a", false, 1⟩] 0 " " = [⟨" ", false, 1⟩] ∧
    (closeAt [⟨"a", false, 1⟩] 0 " ").length = 1 := by
  refine ⟨by decide, by decide, by decide⟩

/-- Claim C1 (amended): `close()` tests the raw, untrimmed input value:
closing with the empty-string input deletes the item (store length
decreases by 1); closing with any non-empty input — whitespace-only
included — keeps the store length and saves the untrimmed input as the
item's title, other fields unchanged. -/
theorem closeAt_spec (s : List Todo) (i : Nat) (v : String)
    (h : i < s.length) :
    (v = "" → (closeAt s i v).length + 1 = s.length) ∧
    (v ≠ "" → (closeAt s i v).length = s.length ∧
      (closeAt s i v)[i]? = s[i]?.map (fun t => { t with title := v })) := by
  constructor
  · intro hv
    have hlen : (s.eraseIdx i).length = s.length - 1 := by
      rw [List.length_eraseIdx, if_pos h]
    simp only [closeAt, hv, ne_eq, not_true_eq_false, if_false, ite_false]
    omega
  · intro hv
    simp only [closeAt, hv, ne_eq, not_false_eq_true, if_true, ite_true]
    exact ⟨updateAt_length s i _, updateAt_getElem? s i _⟩

/-- Witness for C1 (amended): closing the single item with input `"b"`
keeps length 1 and stores title `"b"`. -/
theorem closeAt_spec_witness :
    (closeAt [⟨"a", false, 1⟩] 0 "b").length = 1 ∧
    (closeAt [⟨"a", false, 1⟩] 0 "b")[0]? = some ⟨"b", false, 1⟩ := by
  have h := (closeAt_spec [⟨"a", false, 1⟩] 0 "b" (by decide)).2 (by decide)
  simpa using h

/-- Counterexample to C2: the route fragment `"abc"` is stored verbatim,
so the reachable filter state `⟨"abc"⟩` carries a value outside
`{"", "active", "completed"}`. -/
theorem filter_value_counterexample :
    FilterReachable ⟨"abc"⟩ ∧
    ¬("abc" = "" ∨ "abc" = "active" ∨ "abc" = "completed") :=
  ⟨FilterReachable.route (some "abc") FilterReachable.start, by decide⟩

/-- Claim C2 (amended): the router stores the captured URL fragment into
`FilterState.value` verbatim, defaulting to the empty string when the
fragment is absent, and the initial value is the empty string; since
unrecognized fragments are stored as-is, the value is not restricted to
`{"", "active", "completed"}`. -/
theorem filter_verbatim (p : String) (tf : TodoFilter) :
    (Filters.filter (some p) tf).value = p ∧
    (Filters.filter none tf).value = "" ∧
    TodoFilter.init.value = "" :=
  ⟨rfl, rfl, rfl⟩

lemma insertByOrder_length (t : Todo) (s : List Todo) :
    (insertByOrder t s).length = s.length + 1 := by
  induction s with
  | nil => rfl
  | cons u us ih =>
    by_cases hlt : t.order < u.order
    · simp [insertByOrder, hlt]
    · simp [insertByOrder, hlt, ih]

lemma mem_insertByOrder_self (t : Todo) (s : List Todo) :
    t ∈ insertByOrder t s := by
  induction s with
  | nil => exact List.mem_singleton.mpr rfl
  | cons u us ih =>
    by_cases hlt : t.order < u.order
    · simp [insertByOrder, hlt]
    · simp only [insertByOrder, hlt, if_false, ite_false]
      exact List.mem_cons_of_mem u ih

/-- Claim C6: on Enter, new-item creation is a no-op (store and input
unchanged) when the trimmed input is empty; otherwise it adds exactly one
item — titled with the trimmed input, ordered at `nextOrder()`, not
completed — and clears the input field. -/
theorem createOnEnter_spec (st : AppState) :
    (jsTrim st.inputVal = "" → createOnEnter ENTER_KEY st = st) ∧
    (jsTrim st.inputVal ≠ "" →
      (createOnEnter ENTER_KEY st).inputVal = "" ∧
      (createOnEnter ENTER_KEY st).todos.length = st.todos.length + 1 ∧
      newAttributes st ∈ (createOnEnter ENTER_KEY st).todos ∧
      (newAttributes st).title = jsTrim st.inputVal ∧
      (newAttributes st).completed = false ∧
      (newAttributes st).order = nextOrder st.todos) := by
  constructor
  · intro hv
    simp [createOnEnter, hv]
  · intro hv
    have hcond : ¬(ENTER_KEY ≠ ENTER_KEY ∨ jsTrim st.inputVal = "") := by
      simp [hv]
    rw [createOnEnter, if_neg hcond]
    exact ⟨rfl, insertByOrder_length _ _, mem_insertByOrder_self _ _,
      rfl, rfl, rfl⟩

/-- Witness for C6: creating from the input `" buy milk "` on an empty
store yields one item titled `"buy milk"` with order 1 and clears the
input. -/
theorem createOnEnter_spec_witness :
    (createOnEnter ENTER_KEY ⟨[], " buy milk "⟩).inputVal = "" ∧
    (createOnEnter ENTER_KEY ⟨[], " buy milk "⟩).todos.length = 1 := by
  have h := (createOnEnter_spec ⟨[], " buy milk "⟩).2 (by decide)
  exact ⟨h.1, by simpa using h.2.1⟩

lemma strictSorted_iff_map (s : List Todo) :
    StrictSortedByOrder s ↔
      List.Pairwise (fun a b : Int => a < b) (s.map Todo.order) := by
  unfold StrictSortedByOrder
  rw [List.pairwise_map]

lemma strictSorted_of_map_order_eq {s1 s2 : List Todo}
    (h : s1.map Todo.order = s2.map Todo.order) :
    StrictSortedByOrder s2 → StrictSortedByOrder s1 := by
  intro h2
  rw [strictSorted_iff_map, h, ← strictSorted_iff_map]
  exact h2

lemma updateAt_map_order (s : List Todo) (i : Nat) (f : Todo → Todo)
    (hf : ∀ t, (f t).order = t.order) :
    (updateAt s i f).map Todo.order = s.map Todo.order := by
  induction s generalizing i with
  | nil => rfl
  | cons t ts ih =>
    cases i with
    | zero => simp [updateAt, hf]
    | succ n => simp [updateAt, ih]

lemma toggleAll_map_order (b : Bool) (s : List Todo) :
    (toggleAllComplete b s).map Todo.order = s.map Todo.order := by
  induction s with
  | nil => rfl
  | cons t ts ih =>
    simp only [toggleAllComplete, List.map_cons] at ih ⊢
    exact congrArg (List.cons t.order) ih

lemma orders_lt_nextOrder {s : List Todo} (h : StrictSortedByOrder s) :
    ∀ t ∈ s, t.order < nextOrder s := by
  induction s with
  | nil => intro t ht; cases ht
  | cons a ts ih =>
    intro t ht
    have hp := List.pairwise_cons.mp h
    cases ts with
    | nil =>
      have : t = a := List.mem_singleton.mp ht
      subst this
      show t.order < t.order + 1
      omega
    | cons u us =>
      have hnext : nextOrder (a :: u :: us) = nextOrder (u :: us) := by
        simp [nextOrder, List.getLast?_cons_cons]
      rw [hnext]
      rcases List.mem_cons.mp ht with heq | hmem
      · subst heq
        have hau : t.order < u.order := hp.1 u (List.mem_cons_self u us)
        have hu : u.order < nextOrder (u :: us) :=
          ih hp.2 u (List.mem_cons_self u us)
        omega
      · exact ih hp.2 t hmem

lemma mem_insertByOrder {x t : Todo} :
    ∀ {s : List Todo}, x ∈ insertByOrder t s → x = t ∨ x ∈ s := by
  intro s
  induction s with
  | nil =>
    intro hx
    simp [insertByOrder] at hx
    exact Or.inl hx
  | cons u us ih =>
    intro hx
    by_cases hlt : t.order < u.order
    · simp only [insertByOrder, hlt, ite_true] at hx
      rcases List.mem_cons.mp hx with h | h
      · exact Or.inl h
      · exact Or.inr h
    · simp only [insertByOrder, hlt, ite_false] at hx
      rcases List.mem_cons.mp hx with h | h
      · exact Or.inr (h ▸ List.mem_cons_self u us)
      · rcases ih h with h2 | h2
        · exact Or.inl h2
        · exact Or.inr (List.mem_cons_of_mem u h2)

lemma insert_strictSorted (t : Todo) :
    ∀ {s : List Todo}, StrictSortedByOrder s →
      (∀ u ∈ s, u.order < t.order) →
      StrictSortedByOrder (insertByOrder t s) := by
  intro s
  induction s with
  | nil =>
    intro _ _
    simp [insertByOrder, StrictSortedByOrder]
  | cons u us ih =>
    intro hs hall
    have hut : u.order < t.order := hall u (List.mem_cons_self u us)
    have hnlt : ¬ t.order < u.order := by omega
    simp only [insertByOrder, hnlt, ite_false]
    have hp := List.pairwise_cons.mp hs
    refine List.pairwise_cons.mpr ⟨?_, ih hp.2
      (fun w hw => hall w (List.mem_cons_of_mem u hw))⟩
    intro x hx
    rcases mem_insertByOrder hx with heq | hxm
    · rw [heq]; exact hut
    · exact hp.1 x hxm

/-- Claim C8: every store state reachable through the application's
operations (new-item creation drawing its order from `nextOrder()`,
toggling, edit-close, destroy, clear-completed, toggle-all) has `order`
values strictly increasing along the list, hence pairwise distinct; each
of those operations preserves the invariant. -/
theorem store_orders_invariant {s : List Todo} (h : StoreReachable s) :
    StrictSortedByOrder s := by
  induction h with
  | start => exact List.Pairwise.nil
  | create v hr ih =>
    rename_i s
    by_cases hv : jsTrim v = ""
    · have heq : createOnEnter ENTER_KEY ⟨s, v⟩ = ⟨s, v⟩ := by
        rw [createOnEnter, if_pos (Or.inr hv)]
      rw [heq]
      exact ih
    · have hcond :
          ¬(ENTER_KEY ≠ ENTER_KEY ∨ jsTrim (⟨s, v⟩ : AppState).inputVal = "") := by
        simp [hv]
      rw [createOnEnter, if_neg hcond]
      exact insert_strictSorted _ ih (fun u hu => orders_lt_nextOrder ih u hu)
  | toggle i hr ih =>
    exact strictSorted_of_map_order_eq
      (updateAt_map_order _ _ _ (fun t => rfl)) ih
  | close i v hr ih =>
    by_cases hv : v = ""
    · rw [closeAt, if_neg (by simp [hv])]
      exact List.Pairwise.sublist (List.eraseIdx_sublist _ _) ih
    · rw [closeAt, if_pos hv]
      exact strictSorted_of_map_order_eq
        (updateAt_map_order _ _ _ (fun t => rfl)) ih
  | destroy i hr ih =>
    exact List.Pairwise.sublist (List.eraseIdx_sublist _ _) ih
  | clear hr ih =>
    rw [clearCompleted_eq_filter]
    exact List.Pairwise.sublist (List.filter_sublist _) ih
  | toggleAll b hr ih =>
    exact strictSorted_of_map_order_eq (toggleAll_map_order b _) ih

/-- Witness for C8: the store reached by creating `"a"` then `"b"` on an
empty store has strictly increasing orders. -/
theorem store_orders_invariant_witness :
    StrictSortedByOrder (createOnEnter ENTER_KEY
      ⟨(createOnEnter ENTER_KEY ⟨[], "a"⟩).todos, "b"⟩).todos :=
  store_orders_invariant
    (StoreReachable.create "b" (StoreReachable.create "a" StoreReachable.start))
